import Mathlib

/-!
# Verification of the ROLANN closed-form classification layer

Shallow embedding of `src/models/ROLANN.py`: the local-statistics computation
(`_update_weights`), the incremental statistics aggregation (`_aggregate_parcial`),
the regularized weight solver (`_calculate_weights`, dense and sparse paths),
the inference pass (`forward`), construction (`__init__`), `reset`, `get_params`
and `set_params`, together with theorems settling the frozen claims about them.

Conventions of the embedding:
* tensors become matrices/vectors over a linearly ordered field `K`
  (exact arithmetic; floating point rounding is out of scope),
* `torch.linalg.svd(·, full_matrices=False)` is an external call: it is modelled
  either by quantifying over any factor pair satisfying `IsSVDFactor` (the
  defining property of a reduced SVD), or by an abstract oracle `SvdFun`
  returning something of the correct shape `min m n`,
* fallible Python code (attribute errors, assertion failures, index errors)
  is modelled with `Option`/`Except`.
-/

namespace ROLANNSpec

open Matrix

variable {K : Type} [LinearOrderedField K]

/-! ## Local Statistics Computer (`ROLANN._update_weights`)

Python source:
```
X = X.T
n = X.size(1)
ones = torch.ones((1, n))
xp = torch.cat((ones, X), dim=0)
f_d = self.finv(d)
derf = self.fderiv(f_d)
F = torch.diag(derf)
H = torch.matmul(xp, F)
U, S, _ = torch.linalg.svd(H, full_matrices=False)
M = torch.matmul(xp, torch.matmul(F, torch.matmul(F, f_d)))
return M, U, S
```
The sample index is a general finite type `ι` (so that a concatenated dataset
can be indexed by a sum type). -/

/-- Bias-augmented design matrix `xp`: row 0 is all ones, row `k+1` is feature `k`
of each sample (the code transposes `X` and prepends a row of ones). -/
def xpMat {f : ℕ} {ι : Type} (X : Matrix ι (Fin f) K) : Matrix (Fin (f + 1)) ι K :=
  Matrix.of fun i j => Matrix.vecCons 1 (fun k => X j k) i

/-- Pseudo-targets `f_d = finv(d)` (elementwise inverse activation). -/
def fdVec {ι : Type} (finv : K → K) (d : ι → K) : ι → K :=
  fun j => finv (d j)

/-- Per-sample weights `derf = fderiv(finv(d))` — the code evaluates `fderiv`
at the pseudo-target, elementwise. -/
def derfVec {ι : Type} (finv fderiv : K → K) (d : ι → K) : ι → K :=
  fun j => fderiv (finv (d j))

/-- Weighted design matrix `H = xp @ diag(derf)`. -/
def Hmat {f : ℕ} {ι : Type} [Fintype ι] [DecidableEq ι] (finv fderiv : K → K)
    (X : Matrix ι (Fin f) K) (d : ι → K) : Matrix (Fin (f + 1)) ι K :=
  xpMat X * Matrix.diagonal (derfVec finv fderiv d)

/-- Moment vector `M = xp @ (F @ (F @ f_d))` (the sparse branch computes the same
value: `f_d.T` of a 1-D tensor is itself and `.flatten()` is a no-op there). -/
def Mvec {f : ℕ} {ι : Type} [Fintype ι] [DecidableEq ι] (finv fderiv : K → K)
    (X : Matrix ι (Fin f) K) (d : ι → K) : Fin (f + 1) → K :=
  (xpMat X).mulVec ((Matrix.diagonal (derfVec finv fderiv d)).mulVec
    ((Matrix.diagonal (derfVec finv fderiv d)).mulVec (fdVec finv d)))

/-! ## Weight Solver (`ROLANN._calculate_weights`) -/

/-- Dense path of the solver:
```
diag_elements = 1 / (S * S + self.lamb * torch.ones_like(S))
diag_matrix = torch.diag(diag_elements)
w = torch.matmul(U, torch.matmul(diag_matrix, torch.matmul(U.T, M)))
``` -/
def wSolveDense {m r : ℕ} (lamb : K) (U : Matrix (Fin m) (Fin r) K)
    (S : Fin r → K) (M : Fin m → K) : Fin m → K :=
  U.mulVec ((Matrix.diagonal fun i => 1 / (S i * S i + lamb)).mulVec (Uᵀ.mulVec M))

/-- The matrix `aux = S_sparse.to_dense() * S_sparse.to_dense() + lamb * I_sparse.to_dense()`
built by the sparse path of the solver. In torch, `*` on dense tensors is the
elementwise (Hadamard) product; `S_sparse.to_dense()` is `diag S` and
`I_sparse.to_dense()` is the identity. -/
def auxMat {r : ℕ} (lamb : K) (S : Fin r → K) : Matrix (Fin r) (Fin r) K :=
  Matrix.of fun i j =>
    Matrix.diagonal S i j * Matrix.diagonal S i j + lamb * (1 : Matrix (Fin r) (Fin r) K) i j

/-- Entrywise pseudo-inverse of a diagonal matrix, as a diagonal matrix.
`torch.linalg.pinv` applied to the diagonal matrix `diagonal d` is exactly this
matrix — see `pinvDiagonal_penrose` below, which verifies the four Moore–Penrose
equations characterising the pseudo-inverse. -/
def pinvDiagonal {r : ℕ} (d : Fin r → K) : Matrix (Fin r) (Fin r) K :=
  Matrix.diagonal fun i => if d i = 0 then 0 else (d i)⁻¹

/-- Sparse path of the solver:
`w = torch.matmul(U, torch.matmul(torch.linalg.pinv(aux), torch.matmul(U.T, M)))`
with `aux` reduced to its diagonal form by `auxMat_eq_diagonal`. -/
def wSolveSparse {m r : ℕ} (lamb : K) (U : Matrix (Fin m) (Fin r) K)
    (S : Fin r → K) (M : Fin m → K) : Fin m → K :=
  U.mulVec ((pinvDiagonal fun i => S i * S i + lamb).mulVec (Uᵀ.mulVec M))

/-- The elementwise expression the sparse path builds is the diagonal matrix of
`S i * S i + lamb`. -/
theorem auxMat_eq_diagonal {r : ℕ} (lamb : K) (S : Fin r → K) :
    auxMat lamb S = Matrix.diagonal fun i => S i * S i + lamb := by
  ext i j
  by_cases h : i = j
  · subst h
    simp [auxMat, Matrix.diagonal_apply_eq, Matrix.one_apply_eq]
  · simp [auxMat, Matrix.diagonal_apply_ne _ h, Matrix.one_apply_ne h]

/-- `pinvDiagonal d` satisfies the four Moore–Penrose equations for
`diagonal d`, hence it is the (unique) pseudo-inverse that
`torch.linalg.pinv` computes for that diagonal matrix. -/
theorem pinvDiagonal_penrose {r : ℕ} (d : Fin r → K) :
    Matrix.diagonal d * pinvDiagonal d * Matrix.diagonal d = Matrix.diagonal d ∧
    pinvDiagonal d * Matrix.diagonal d * pinvDiagonal d = pinvDiagonal d ∧
    (Matrix.diagonal d * pinvDiagonal d)ᵀ = Matrix.diagonal d * pinvDiagonal d ∧
    (pinvDiagonal d * Matrix.diagonal d)ᵀ = pinvDiagonal d * Matrix.diagonal d := by
  refine ⟨?_, ?_, ?_, ?_⟩
  · simp only [pinvDiagonal, Matrix.diagonal_mul_diagonal]
    refine congrArg Matrix.diagonal (funext fun i => ?_)
    by_cases h : d i = 0
    · simp [h]
    · simp [h, mul_inv_cancel₀ h]
  · simp only [pinvDiagonal, Matrix.diagonal_mul_diagonal]
    refine congrArg Matrix.diagonal (funext fun i => ?_)
    by_cases h : d i = 0
    · simp [h]
    · simp [h, inv_mul_cancel₀ h]
  · simp only [pinvDiagonal, Matrix.diagonal_mul_diagonal, Matrix.diagonal_transpose]
  · simp only [pinvDiagonal, Matrix.diagonal_mul_diagonal, Matrix.diagonal_transpose]

/-! ## Reduced SVD, modelled abstractly

`torch.linalg.svd(A, full_matrices=False)` is an external library call. A
returned pair `(U, S)` is characterised by the defining property of a reduced
singular-value factorisation; theorems about code containing an SVD call
quantify over every pair satisfying it. -/

/-- `(U, S)` is a factor pair of a reduced SVD of `A`: `U` has orthonormal
columns, and `A = U · diag(S) · Vᵀ` for some matrix `V` with orthonormal
columns (torch additionally sorts `S` descending, which no claim needs). -/
def IsSVDFactor {m r : ℕ} {ι : Type} [Fintype ι] (A : Matrix (Fin m) ι K)
    (U : Matrix (Fin m) (Fin r) K) (S : Fin r → K) : Prop :=
  Uᵀ * U = 1 ∧ ∃ V : Matrix ι (Fin r) K, Vᵀ * V = 1 ∧ A = U * Matrix.diagonal S * Vᵀ

theorem IsSVDFactor.gram {m r : ℕ} {ι : Type} [Fintype ι] [DecidableEq ι]
    {A : Matrix (Fin m) ι K} {U : Matrix (Fin m) (Fin r) K} {S : Fin r → K}
    (h : IsSVDFactor A U S) :
    A * Aᵀ = U * Matrix.diagonal (fun i => S i * S i) * Uᵀ := by
  obtain ⟨hU, V, hV, hA⟩ := h
  rw [hA]
  have ht : (U * Matrix.diagonal S * Vᵀ)ᵀ = V * (Matrix.diagonal S * Uᵀ) := by
    rw [Matrix.transpose_mul, Matrix.transpose_mul, Matrix.transpose_transpose,
      Matrix.diagonal_transpose]
  rw [ht]
  simp only [Matrix.mul_assoc]
  rw [← Matrix.mul_assoc Vᵀ V, hV, Matrix.one_mul,
    ← Matrix.mul_assoc (Matrix.diagonal S) (Matrix.diagonal S), Matrix.diagonal_mul_diagonal]

theorem IsSVDFactor.self_mul {m r : ℕ} {ι : Type} [Fintype ι]
    {A : Matrix (Fin m) ι K} {U : Matrix (Fin m) (Fin r) K} {S : Fin r → K}
    (h : IsSVDFactor A U S) :
    U * (Uᵀ * A) = A := by
  obtain ⟨hU, V, hV, hA⟩ := h
  rw [hA]
  simp only [Matrix.mul_assoc]
  rw [← Matrix.mul_assoc Uᵀ U, hU, Matrix.one_mul]

/-- Columns of `U` absorb anything in the column space of `A`:
`U·Uᵀ` fixes every vector `A·y`. -/
theorem IsSVDFactor.proj_fix {m r : ℕ} {ι : Type} [Fintype ι]
    {A : Matrix (Fin m) ι K} {U : Matrix (Fin m) (Fin r) K} {S : Fin r → K}
    (h : IsSVDFactor A U S) (y : ι → K) :
    U.mulVec (Uᵀ.mulVec (A.mulVec y)) = A.mulVec y := by
  rw [Matrix.mulVec_mulVec, Matrix.mulVec_mulVec, Matrix.mul_assoc, h.self_mul]

/-! ## Algebra of the regularized solver -/

/-- Normal-equation identity for the dense solver: multiplying the solved
weights by `U·diag(S²)·Uᵀ + λ·I` reproduces the projection `U·Uᵀ·M` of the
moment vector. -/
theorem solver_normal_eq {m r : ℕ} (lamb : K) (hl : 0 < lamb)
    (U : Matrix (Fin m) (Fin r) K) (S : Fin r → K) (M : Fin m → K)
    (hU : Uᵀ * U = 1) :
    (U * Matrix.diagonal (fun i => S i * S i) * Uᵀ + lamb • 1).mulVec
        (wSolveDense lamb U S M)
      = U.mulVec (Uᵀ.mulVec M) := by
  have hmat : (U * Matrix.diagonal (fun i => S i * S i) * Uᵀ + lamb • 1) *
      (U * Matrix.diagonal (fun i => 1 / (S i * S i + lamb)) * Uᵀ) = U * Uᵀ := by
    rw [Matrix.add_mul, Matrix.smul_mul, Matrix.one_mul]
    have h1 : U * Matrix.diagonal (fun i => S i * S i) * Uᵀ *
        (U * Matrix.diagonal (fun i => 1 / (S i * S i + lamb)) * Uᵀ)
        = U * (Matrix.diagonal (fun i => S i * S i) *
            Matrix.diagonal (fun i => 1 / (S i * S i + lamb))) * Uᵀ := by
      simp only [Matrix.mul_assoc]
      rw [← Matrix.mul_assoc Uᵀ U, hU, Matrix.one_mul]
    have h2 : lamb • (U * Matrix.diagonal (fun i => 1 / (S i * S i + lamb)) * Uᵀ)
        = U * (lamb • Matrix.diagonal fun i => 1 / (S i * S i + lamb)) * Uᵀ := by
      rw [Matrix.mul_smul, Matrix.smul_mul]
    rw [h1, h2, ← Matrix.add_mul, ← Matrix.mul_add, Matrix.diagonal_mul_diagonal,
      ← Matrix.diagonal_smul, Matrix.diagonal_add]
    have h3 : (Matrix.diagonal fun i =>
        S i * S i * (1 / (S i * S i + lamb)) + (lamb • fun i => 1 / (S i * S i + lamb)) i)
        = (1 : Matrix (Fin r) (Fin r) K) := by
      rw [← Matrix.diagonal_one]
      refine congrArg Matrix.diagonal (funext fun i => ?_)
      have hpos : 0 < S i * S i + lamb := add_pos_of_nonneg_of_pos (mul_self_nonneg _) hl
      have hne := hpos.ne'
      rw [Pi.smul_apply, smul_eq_mul]
      field_simp
    rw [h3, Matrix.mul_one]
  have hcollapse : (U * Matrix.diagonal (fun i => S i * S i) * Uᵀ + lamb • 1).mulVec
      (wSolveDense lamb U S M)
      = ((U * Matrix.diagonal (fun i => S i * S i) * Uᵀ + lamb • 1) *
          (U * Matrix.diagonal (fun i => 1 / (S i * S i + lamb)) * Uᵀ)).mulVec M := by
    rw [wSolveDense, Matrix.mulVec_mulVec, Matrix.mulVec_mulVec, Matrix.mulVec_mulVec]
    simp only [Matrix.mul_assoc]
  rw [hcollapse, hmat, ← Matrix.mulVec_mulVec]

/-- Positive semidefiniteness of `U·diag(S²)·Uᵀ`. -/
theorem gram_psd {m r : ℕ} (U : Matrix (Fin m) (Fin r) K) (S : Fin r → K)
    (x : Fin m → K) :
    0 ≤ dotProduct x ((U * Matrix.diagonal (fun i => S i * S i) * Uᵀ).mulVec x) := by
  have h1 : (U * Matrix.diagonal (fun i => S i * S i) * Uᵀ).mulVec x
      = U.mulVec ((Matrix.diagonal fun i => S i * S i).mulVec (Uᵀ.mulVec x)) := by
    simp only [Matrix.mulVec_mulVec, Matrix.mul_assoc]
  have h2 : x ᵥ* U = Uᵀ.mulVec x := by
    rw [← Matrix.transpose_transpose U, Matrix.vecMul_transpose, Matrix.transpose_transpose]
  rw [h1, Matrix.dotProduct_mulVec, h2]
  simp only [dotProduct, Matrix.mulVec_diagonal]
  refine Finset.sum_nonneg fun i _ => ?_
  nlinarith [mul_self_nonneg (S i * Uᵀ.mulVec x i)]

/-- `A + λ·I` is injective as soon as `A` is positive semidefinite and `λ > 0`. -/
theorem psd_add_smul_inj {m : ℕ} (A : Matrix (Fin m) (Fin m) K)
    (hA : ∀ x : Fin m → K, 0 ≤ dotProduct x (A.mulVec x)) {lamb : K} (hl : 0 < lamb)
    {x y : Fin m → K} (hxy : (A + lamb • 1).mulVec x = (A + lamb • 1).mulVec y) :
    x = y := by
  have hz : (A + lamb • 1).mulVec (x - y) = 0 := by
    rw [Matrix.mulVec_sub, hxy, sub_self]
  have h0 : dotProduct (x - y) ((A + lamb • 1).mulVec (x - y)) = 0 := by
    rw [hz, dotProduct_zero]
  rw [Matrix.add_mulVec, dotProduct_add, Matrix.smul_mulVec_assoc, Matrix.one_mulVec,
    dotProduct_smul, smul_eq_mul] at h0
  have hzz : 0 ≤ dotProduct (x - y) (x - y) :=
    Finset.sum_nonneg fun i _ => mul_self_nonneg _
  have hsub : x - y = 0 := by
    by_contra hne
    have hpos : 0 < dotProduct (x - y) (x - y) :=
      lt_of_le_of_ne hzz (fun hh => hne (Matrix.dotProduct_self_eq_zero.mp hh.symm))
    nlinarith [hA (x - y), mul_pos hl hpos]
  exact sub_eq_zero.mp hsub

/-- **C2.** For every class statistics `(M, U, S)` and every `λ`, the dense
(`sparse=False`) path of `_calculate_weights` returns exactly the weight vector
`w = U · diag(1/(S² + λ)) · Uᵗ · M` of the specification. -/
theorem C2_dense_solver_formula {m r : ℕ} (lamb : K) (U : Matrix (Fin m) (Fin r) K)
    (S : Fin r → K) (M : Fin m → K) :
    wSolveDense lamb U S M
      = (U * Matrix.diagonal (fun i => 1 / (S i ^ 2 + lamb)) * Uᵀ).mulVec M := by
  simp only [wSolveDense, Matrix.mulVec_mulVec, Matrix.mul_assoc, pow_two]

/-- **C7.** The sparse diagonal path of `_calculate_weights` (pseudo-inverse of
`S² + λI`) and the dense reciprocal path compute the same weight vector, exactly,
whenever the regularized spectrum `S² + λ` is nonzero (in particular for every
`λ ≥ 0` unless `λ = 0` meets a zero singular value; in floating point the
difference is below tolerance). -/
theorem C7_sparse_dense_equiv {m r : ℕ} (lamb : K) (U : Matrix (Fin m) (Fin r) K)
    (S : Fin r → K) (M : Fin m → K) (hl : 0 ≤ lamb)
    (hne : ∀ i, S i * S i + lamb ≠ 0) :
    wSolveSparse lamb U S M = wSolveDense lamb U S M := by
  have h : (pinvDiagonal fun i => S i * S i + lamb)
      = Matrix.diagonal fun i => 1 / (S i * S i + lamb) := by
    refine congrArg Matrix.diagonal (funext fun i => ?_)
    rw [if_neg (hne i), one_div]
  simp only [wSolveSparse, wSolveDense, h]

/-- Concrete 2×1 column-orthonormal matrix used by witnesses. -/
def Ucol : Matrix (Fin 2) (Fin 1) ℚ :=
  Matrix.of fun i _ => if i = 0 then 1 else 0

/-- Witness for C7: sparse and dense solver paths agree at a concrete input. -/
theorem C7_sparse_dense_equiv_witness :
    wSolveSparse (1 : ℚ) Ucol ![2] ![3, 4] = wSolveDense (1 : ℚ) Ucol ![2] ![3, 4] :=
  C7_sparse_dense_equiv 1 Ucol ![2] ![3, 4] (by norm_num)
    (by intro i; fin_cases i; norm_num)

/-! ## Concatenation (`torch.cat`) and the two-batch dataset -/

/-- Column concatenation `torch.cat((A, B), dim=1)`, columns indexed by `Fin (p + q)`.
This is the shape fed to the SVD inside `_aggregate_parcial`. -/
def hcat {m p q : ℕ} (A : Matrix (Fin m) (Fin p) K) (B : Matrix (Fin m) (Fin q) K) :
    Matrix (Fin m) (Fin (p + q)) K :=
  Matrix.of fun i j => Fin.addCases (fun j1 => A i j1) (fun j2 => B i j2) j

/-- Row concatenation of two feature batches: the full dataset, samples indexed
by a sum type. -/
def vstack {c : ℕ} {ι₁ ι₂ : Type} (X1 : Matrix ι₁ (Fin c) K) (X2 : Matrix ι₂ (Fin c) K) :
    Matrix (ι₁ ⊕ ι₂) (Fin c) K :=
  Matrix.of fun j k => Sum.elim (fun a => X1 a k) (fun b => X2 b k) j

/-- Column concatenation with sum-type column index (used to split the full
dataset's design matrix into its two batch blocks). -/
def ccat {m : ℕ} {ι₁ ι₂ : Type} (A : Matrix (Fin m) ι₁ K) (B : Matrix (Fin m) ι₂ K) :
    Matrix (Fin m) (ι₁ ⊕ ι₂) K :=
  Matrix.of fun i => Sum.elim (A i) (B i)

theorem hcat_mul_transpose {m p q : ℕ} (A : Matrix (Fin m) (Fin p) K)
    (B : Matrix (Fin m) (Fin q) K) :
    hcat A B * (hcat A B)ᵀ = A * Aᵀ + B * Bᵀ := by
  ext i j
  simp only [Matrix.mul_apply, Matrix.transpose_apply, Matrix.add_apply, hcat, Matrix.of_apply]
  rw [Fin.sum_univ_add]
  congr 1
  · exact Finset.sum_congr rfl fun k _ => by rw [Fin.addCases_left, Fin.addCases_left]
  · exact Finset.sum_congr rfl fun k _ => by rw [Fin.addCases_right, Fin.addCases_right]

theorem hcat_mulVec_append {m p q : ℕ} (A : Matrix (Fin m) (Fin p) K)
    (B : Matrix (Fin m) (Fin q) K) (u : Fin p → K) (v : Fin q → K) :
    (hcat A B).mulVec (Fin.append u v) = A.mulVec u + B.mulVec v := by
  funext i
  simp only [Matrix.mulVec, dotProduct, Pi.add_apply, hcat, Matrix.of_apply]
  rw [Fin.sum_univ_add]
  congr 1
  · exact Finset.sum_congr rfl fun k _ => by rw [Fin.addCases_left, Fin.append_left]
  · exact Finset.sum_congr rfl fun k _ => by rw [Fin.addCases_right, Fin.append_right]

theorem ccat_mul_transpose {m : ℕ} {ι₁ ι₂ : Type} [Fintype ι₁] [Fintype ι₂]
    (A : Matrix (Fin m) ι₁ K) (B : Matrix (Fin m) ι₂ K) :
    ccat A B * (ccat A B)ᵀ = A * Aᵀ + B * Bᵀ := by
  ext i j
  simp only [Matrix.mul_apply, Matrix.transpose_apply, Matrix.add_apply, ccat, Matrix.of_apply,
    Fintype.sum_sum_type, Sum.elim_inl, Sum.elim_inr]

/-- The weighted design of the concatenated dataset splits into the two batch
designs, block by block. -/
theorem Hmat_vstack {f : ℕ} {ι₁ ι₂ : Type} [Fintype ι₁] [Fintype ι₂]
    [DecidableEq ι₁] [DecidableEq ι₂] (finv fderiv : K → K)
    (X1 : Matrix ι₁ (Fin f) K) (X2 : Matrix ι₂ (Fin f) K) (d1 : ι₁ → K) (d2 : ι₂ → K) :
    Hmat finv fderiv (vstack X1 X2) (Sum.elim d1 d2)
      = ccat (Hmat finv fderiv X1 d1) (Hmat finv fderiv X2 d2) := by
  ext i j
  cases j with
  | inl a =>
    simp only [Hmat, Matrix.mul_diagonal, ccat, Matrix.of_apply, Sum.elim_inl]
    rfl
  | inr b =>
    simp only [Hmat, Matrix.mul_diagonal, ccat, Matrix.of_apply, Sum.elim_inr]
    rfl

/-- Additivity of the moment vector across a dataset split: `M` is a linear
sufficient statistic. -/
theorem Mvec_vstack {f : ℕ} {ι₁ ι₂ : Type} [Fintype ι₁] [Fintype ι₂]
    [DecidableEq ι₁] [DecidableEq ι₂] (finv fderiv : K → K)
    (X1 : Matrix ι₁ (Fin f) K) (X2 : Matrix ι₂ (Fin f) K) (d1 : ι₁ → K) (d2 : ι₂ → K) :
    Mvec finv fderiv (vstack X1 X2) (Sum.elim d1 d2)
      = Mvec finv fderiv X1 d1 + Mvec finv fderiv X2 d2 := by
  have hinner : ∀ {ι : Type} [Fintype ι] [DecidableEq ι] (d : ι → K),
      (Matrix.diagonal (derfVec finv fderiv d)).mulVec
        ((Matrix.diagonal (derfVec finv fderiv d)).mulVec (fdVec finv d))
      = fun j => derfVec finv fderiv d j * (derfVec finv fderiv d j * fdVec finv d j) := by
    intro ι _ _ d
    funext j
    rw [Matrix.mulVec_diagonal, Matrix.mulVec_diagonal]
  funext i
  simp only [Mvec, hinner]
  simp only [Matrix.mulVec, dotProduct, Pi.add_apply]
  rw [Fintype.sum_sum_type]
  congr 1

/-- The moment vector lies in the column space of the weighted design. -/
theorem Mvec_eq_Hmat_mulVec {f : ℕ} {ι : Type} [Fintype ι] [DecidableEq ι]
    (finv fderiv : K → K) (X : Matrix ι (Fin f) K) (d : ι → K) :
    Mvec finv fderiv X d
      = (Hmat finv fderiv X d).mulVec
          ((Matrix.diagonal (derfVec finv fderiv d)).mulVec (fdVec finv d)) := by
  simp only [Mvec, Hmat, ← Matrix.mulVec_mulVec]

/-- Gram matrix of a scaled factor: `(U·diag S)·(U·diag S)ᵀ = U·diag(S²)·Uᵀ`. -/
theorem usd_gram {m r : ℕ} (U : Matrix (Fin m) (Fin r) K) (S : Fin r → K) :
    U * Matrix.diagonal S * (U * Matrix.diagonal S)ᵀ
      = U * Matrix.diagonal (fun i => S i * S i) * Uᵀ := by
  rw [Matrix.transpose_mul, Matrix.diagonal_transpose]
  calc U * Matrix.diagonal S * (Matrix.diagonal S * Uᵀ)
      = U * (Matrix.diagonal S * Matrix.diagonal S) * Uᵀ := by
        simp only [Matrix.mul_assoc]
    _ = U * Matrix.diagonal (fun i => S i * S i) * Uᵀ := by
        rw [Matrix.diagonal_mul_diagonal]

/-- **C1.** Two-batch incremental equivalence of `aggregate_update`, per class:
with batch sizes within the no-truncation regime `n ≤ f + 1`, running
`aggregate_update` on batch 1 (first call: the local statistics are stored
verbatim) and then on batch 2 (second call: `M₁ + M₂` with an SVD of the
concatenation `[U₂·diag S₂ | U₁·diag S₁]`) solves, for any SVD factor pairs the
library may return at the four SVD call sites, exactly the same dense weight
vector as a single `aggregate_update` on the concatenated dataset. Stated per
class (the target column `d` is arbitrary), in exact arithmetic, for `λ > 0`. -/
theorem C1_incremental_merge_equiv {f n1 n2 r1 r2 rm rf : ℕ}
    (finv fderiv : K → K) (lamb : K) (hl : 0 < lamb)
    (X1 : Matrix (Fin n1) (Fin f) K) (d1 : Fin n1 → K)
    (X2 : Matrix (Fin n2) (Fin f) K) (d2 : Fin n2 → K)
    (hn1 : n1 ≤ f + 1) (hn2 : n2 ≤ f + 1)
    (U1 : Matrix (Fin (f + 1)) (Fin r1) K) (S1 : Fin r1 → K)
    (hsvd1 : IsSVDFactor (Hmat finv fderiv X1 d1) U1 S1)
    (U2 : Matrix (Fin (f + 1)) (Fin r2) K) (S2 : Fin r2 → K)
    (hsvd2 : IsSVDFactor (Hmat finv fderiv X2 d2) U2 S2)
    (Um : Matrix (Fin (f + 1)) (Fin rm) K) (Sm : Fin rm → K)
    (hsvdm : IsSVDFactor (hcat (U2 * Matrix.diagonal S2) (U1 * Matrix.diagonal S1)) Um Sm)
    (Uf : Matrix (Fin (f + 1)) (Fin rf) K) (Sf : Fin rf → K)
    (hsvdf : IsSVDFactor (Hmat finv fderiv (vstack X1 X2) (Sum.elim d1 d2)) Uf Sf) :
    wSolveDense lamb Um Sm (Mvec finv fderiv X1 d1 + Mvec finv fderiv X2 d2)
      = wSolveDense lamb Uf Sf (Mvec finv fderiv (vstack X1 X2) (Sum.elim d1 d2)) := by
  have hgram : hcat (U2 * Matrix.diagonal S2) (U1 * Matrix.diagonal S1) *
      (hcat (U2 * Matrix.diagonal S2) (U1 * Matrix.diagonal S1))ᵀ
      = Hmat finv fderiv (vstack X1 X2) (Sum.elim d1 d2) *
        (Hmat finv fderiv (vstack X1 X2) (Sum.elim d1 d2))ᵀ := by
    rw [hcat_mul_transpose, Hmat_vstack, ccat_mul_transpose, usd_gram, usd_gram,
      hsvd1.gram, hsvd2.gram]
    exact add_comm _ _
  have hAeq : Uf * Matrix.diagonal (fun i => Sf i * Sf i) * Ufᵀ
      = Um * Matrix.diagonal (fun i => Sm i * Sm i) * Umᵀ := by
    rw [← hsvdf.gram, ← hsvdm.gram, hgram]
  have hMfull : Mvec finv fderiv (vstack X1 X2) (Sum.elim d1 d2)
      = Mvec finv fderiv X1 d1 + Mvec finv fderiv X2 d2 :=
    Mvec_vstack finv fderiv X1 X2 d1 d2
  obtain ⟨hU1o, V1, hV1, hH1⟩ := id hsvd1
  obtain ⟨hU2o, V2, hV2, hH2⟩ := id hsvd2
  have hterm : ∀ {n r : ℕ} (U : Matrix (Fin (f + 1)) (Fin r) K) (S : Fin r → K)
      (V : Matrix (Fin n) (Fin r) K) (X : Matrix (Fin n) (Fin f) K) (d : Fin n → K),
      Hmat finv fderiv X d = U * Matrix.diagonal S * Vᵀ →
      (U * Matrix.diagonal S).mulVec (Vᵀ.mulVec
        ((Matrix.diagonal (derfVec finv fderiv d)).mulVec (fdVec finv d)))
        = Mvec finv fderiv X d := by
    intro n r U S V X d hH
    rw [Matrix.mulVec_mulVec, ← hH, ← Mvec_eq_Hmat_mulVec]
  have hM12 : Mvec finv fderiv X1 d1 + Mvec finv fderiv X2 d2
      = (hcat (U2 * Matrix.diagonal S2) (U1 * Matrix.diagonal S1)).mulVec
          (Fin.append
            (V2ᵀ.mulVec ((Matrix.diagonal (derfVec finv fderiv d2)).mulVec (fdVec finv d2)))
            (V1ᵀ.mulVec ((Matrix.diagonal (derfVec finv fderiv d1)).mulVec (fdVec finv d1)))) := by
    rw [hcat_mulVec_append, hterm U2 S2 V2 X2 d2 hH2, hterm U1 S1 V1 X1 d1 hH1]
    exact add_comm _ _
  have hfix_m : Um.mulVec (Umᵀ.mulVec
      (Mvec finv fderiv X1 d1 + Mvec finv fderiv X2 d2))
      = Mvec finv fderiv X1 d1 + Mvec finv fderiv X2 d2 := by
    rw [hM12]
    exact hsvdm.proj_fix _
  have hfix_f : Uf.mulVec (Ufᵀ.mulVec (Mvec finv fderiv (vstack X1 X2) (Sum.elim d1 d2)))
      = Mvec finv fderiv (vstack X1 X2) (Sum.elim d1 d2) := by
    rw [Mvec_eq_Hmat_mulVec finv fderiv (vstack X1 X2) (Sum.elim d1 d2)]
    exact hsvdf.proj_fix _
  apply psd_add_smul_inj (Um * Matrix.diagonal (fun i => Sm i * Sm i) * Umᵀ)
    (gram_psd Um Sm) hl
  rw [solver_normal_eq lamb hl Um Sm _ hsvdm.1, hfix_m, ← hAeq,
    solver_normal_eq lamb hl Uf Sf _ hsvdf.1, hfix_f, hMfull]

/-! ### Concrete witness data for the two-batch merge

Linear activation (`finv = id`, `fderiv = 1`), `f = 1`, one sample per batch,
features `3/4` and `-4/3`: the two weighted design columns are orthogonal, so
every SVD in sight is rational. -/

def wX1 : Matrix (Fin 1) (Fin 1) ℚ := !![3/4]

def wd1 : Fin 1 → ℚ := ![1]

def wX2 : Matrix (Fin 1) (Fin 1) ℚ := !![-(4/3)]

def wd2 : Fin 1 → ℚ := ![1]

def wU1 : Matrix (Fin 2) (Fin 1) ℚ := !![4/5; 3/5]

def wS1 : Fin 1 → ℚ := ![5/4]

def wU2 : Matrix (Fin 2) (Fin 1) ℚ := !![3/5; -(4/5)]

def wS2 : Fin 1 → ℚ := ![5/3]

def wUm : Matrix (Fin 2) (Fin 2) ℚ := !![3/5, 4/5; -(4/5), 3/5]

def wSm : Fin 2 → ℚ := ![5/3, 5/4]

def wUf : Matrix (Fin 2) (Fin 2) ℚ := !![4/5, 3/5; 3/5, -(4/5)]

def wSf : Fin 2 → ℚ := ![5/4, 5/3]

def wVf : Matrix (Fin 1 ⊕ Fin 1) (Fin 2) ℚ :=
  Matrix.of fun j k =>
    Sum.elim (fun _ => if k = 0 then 1 else 0) (fun _ => if k = 1 then 1 else 0) j

theorem wsvd1 : IsSVDFactor (Hmat (id : ℚ → ℚ) (fun _ => 1) wX1 wd1) wU1 wS1 := by
  refine ⟨?_, 1, ?_, ?_⟩
  · ext i j
    fin_cases i <;> fin_cases j <;>
      simp [wU1, Matrix.mul_apply, Fin.sum_univ_succ, Matrix.one_apply,
        Matrix.vecHead, Matrix.vecTail, Matrix.vecMul, dotProduct] <;> norm_num
  · simp
  · ext i j
    fin_cases i <;> fin_cases j <;>
      simp [Hmat, xpMat, derfVec, wX1, wd1, wU1, wS1, Matrix.mul_apply,
        Fin.sum_univ_succ, Matrix.diagonal_apply, Matrix.one_apply,
        Matrix.vecHead, Matrix.vecTail, Matrix.vecMul, dotProduct] <;> norm_num

theorem wsvd2 : IsSVDFactor (Hmat (id : ℚ → ℚ) (fun _ => 1) wX2 wd2) wU2 wS2 := by
  refine ⟨?_, 1, ?_, ?_⟩
  · ext i j
    fin_cases i <;> fin_cases j <;>
      simp [wU2, Matrix.mul_apply, Fin.sum_univ_succ, Matrix.one_apply,
        Matrix.vecHead, Matrix.vecTail, Matrix.vecMul, dotProduct] <;> norm_num
  · simp
  · ext i j
    fin_cases i <;> fin_cases j <;>
      simp [Hmat, xpMat, derfVec, wX2, wd2, wU2, wS2, Matrix.mul_apply,
        Fin.sum_univ_succ, Matrix.diagonal_apply, Matrix.one_apply,
        Matrix.vecHead, Matrix.vecTail, Matrix.vecMul, dotProduct] <;> norm_num

theorem wsvdm :
    IsSVDFactor (hcat (wU2 * Matrix.diagonal wS2) (wU1 * Matrix.diagonal wS1)) wUm wSm := by
  refine ⟨?_, 1, ?_, ?_⟩
  · ext i j
    fin_cases i <;> fin_cases j <;>
      simp [wUm, Matrix.mul_apply, Fin.sum_univ_succ, Matrix.one_apply,
        Matrix.vecHead, Matrix.vecTail, Matrix.vecMul, dotProduct] <;> norm_num
  · simp
  · ext i j
    fin_cases i <;> fin_cases j <;>
      simp [hcat, Fin.addCases, Fin.castPred, Fin.subNat, Fin.castLT, wU1, wU2, wS1, wS2,
        wUm, wSm, Matrix.mul_apply, Fin.sum_univ_succ, Matrix.diagonal_apply,
        Matrix.one_apply, Matrix.vecHead, Matrix.vecTail, Matrix.vecMul, dotProduct] <;>
      norm_num

theorem wsvdf :
    IsSVDFactor (Hmat (id : ℚ → ℚ) (fun _ => 1) (vstack wX1 wX2) (Sum.elim wd1 wd2))
      wUf wSf := by
  refine ⟨?_, wVf, ?_, ?_⟩
  · ext i j
    fin_cases i <;> fin_cases j <;>
      simp [wUf, Matrix.mul_apply, Fin.sum_univ_succ, Matrix.one_apply,
        Matrix.vecHead, Matrix.vecTail, Matrix.vecMul, dotProduct] <;> norm_num
  · ext i j
    fin_cases i <;> fin_cases j <;>
      simp [wVf, Matrix.mul_apply, Fintype.sum_sum_type, Matrix.one_apply,
        Matrix.vecHead, Matrix.vecTail, Matrix.vecMul, dotProduct] <;> norm_num
  · ext i j
    rcases j with a | b
    · fin_cases a <;> fin_cases i <;>
        simp [Hmat, xpMat, derfVec, vstack, wVf, wX1, wX2, wd1, wd2, wUf, wSf,
          Matrix.mul_apply, Fin.sum_univ_succ, Matrix.diagonal_apply, Matrix.one_apply,
          Matrix.vecHead, Matrix.vecTail, Matrix.vecMul, dotProduct] <;> norm_num
    · fin_cases b <;> fin_cases i <;>
        simp [Hmat, xpMat, derfVec, vstack, wVf, wX1, wX2, wd1, wd2, wUf, wSf,
          Matrix.mul_apply, Fin.sum_univ_succ, Matrix.diagonal_apply, Matrix.one_apply,
          Matrix.vecHead, Matrix.vecTail, Matrix.vecMul, dotProduct] <;> norm_num

/-- Witness for C1: the two-call and one-call weights coincide on a concrete
two-batch dataset with rational SVDs. -/
theorem C1_incremental_merge_equiv_witness :
    wSolveDense (1 : ℚ) wUm wSm
        (Mvec id (fun _ => 1) wX1 wd1 + Mvec id (fun _ => 1) wX2 wd2)
      = wSolveDense 1 wUf wSf (Mvec id (fun _ => 1) (vstack wX1 wX2) (Sum.elim wd1 wd2)) :=
  C1_incremental_merge_equiv id (fun _ => 1) 1 (by norm_num) wX1 wd1 wX2 wd2
    (by norm_num) (by norm_num) wU1 wS1 wsvd1 wU2 wS2 wsvd2 wUm wSm wsvdm wUf wSf wsvdf

/-! ## The ROLANN instance as a state machine

`num_classes` is assigned once in `__init__` and never reassigned (the class
has no `add_num_classes`), so it is a type-level parameter `C`.  The three
parallel lists `mg`, `ug`, `sg` are always pushed/assigned together with one
entry per class, so they are zipped into one list of per-class records. -/

/-- `torch.linalg.svd(·, full_matrices=False)` as an abstract deterministic
oracle of the correct shape: `U` has `min m n` columns and `S` has `min m n`
entries.  No claim settled through the machine needs the factorisation
property, only the shape. -/
def SvdFun (K : Type) : Type :=
  ∀ (m n : ℕ), Matrix (Fin m) (Fin n) K → Matrix (Fin m) (Fin (min m n)) K × (Fin (min m n) → K)

/-- One per-class statistics entry: one slot of the zipped `mg`/`ug`/`sg`. -/
structure PCStats (f : ℕ) (K : Type) where
  r : ℕ
  M : Fin (f + 1) → K
  U : Matrix (Fin (f + 1)) (Fin r) K
  S : Fin r → K

/-- Mutable state of a `ROLANN` instance. The activation attributes are
`Option`s: `__init__` assigns them only in its three recognized branches. -/
structure ROLANNState (f C : ℕ) (K : Type) where
  lamb : K
  fOpt : Option (K → K)
  finvOpt : Option (K → K)
  fderivOpt : Option (K → K)
  sparse : Bool
  g : List (PCStats f K)
  w : Option (List (Fin (f + 1) → K))

/-- `_update_weights` for one class: `(M, U, S)` with `U, S` from the SVD of
the weighted design. -/
def localStats (svd : SvdFun K) {f n : ℕ} (finv fderiv : K → K)
    (X : Matrix (Fin n) (Fin f) K) (dc : Fin n → K) : PCStats f K :=
  ⟨min (f + 1) n, Mvec finv fderiv X dc,
    (svd (f + 1) n (Hmat finv fderiv X dc)).1,
    (svd (f + 1) n (Hmat finv fderiv X dc)).2⟩

/-- `update_weights`: per-class local statistics for every class column of `d`.
Fails (AttributeError, before mutating anything) when the activation
attributes were never assigned. -/
def updateWeightsAll (svd : SvdFun K) {f C n : ℕ} (s : ROLANNState f C K)
    (X : Matrix (Fin n) (Fin f) K) (d : Fin n → Fin C → K) :
    Option (Fin C → PCStats f K) :=
  match s.finvOpt, s.fderivOpt with
  | some finv, some fderiv => some fun c => localStats svd finv fderiv X fun j => d j c
  | _, _ => none

/-- The merge of `_aggregate_parcial` for one class with an existing global
entry:
```
M = M + m_k
us_k = torch.matmul(u_k, torch.diag(s_k))
concatenated = torch.cat((us_k, US), dim=1)
U, S, _ = torch.linalg.svd(concatenated, full_matrices=False)
``` -/
def mergeStats (svd : SvdFun K) {f : ℕ} (gstat lstat : PCStats f K) : PCStats f K :=
  ⟨min (f + 1) (lstat.r + gstat.r), gstat.M + lstat.M,
    (svd (f + 1) (lstat.r + gstat.r)
      (hcat (lstat.U * Matrix.diagonal lstat.S) (gstat.U * Matrix.diagonal gstat.S))).1,
    (svd (f + 1) (lstat.r + gstat.r)
      (hcat (lstat.U * Matrix.diagonal lstat.S) (gstat.U * Matrix.diagonal gstat.S))).2⟩

/-- The `for c in range(self.num_classes)` loop of `_aggregate_parcial`,
recursing over the list of remaining class indices and carrying the `init`
flag and the current (zipped) global lists.  `none` models the failed
`assert self.num_classes == len(self.mg)` (and an out-of-range index). -/
def aggLoop (svd : SvdFun K) {f C : ℕ} (locals : Fin C → PCStats f K) :
    List (Fin C) → Bool → List (PCStats f K) → Option (List (PCStats f K))
  | [], _, gs => some gs
  | c :: cs, init, gs =>
    if gs.isEmpty || init then aggLoop svd locals cs true (gs ++ [locals c])
    else if gs.length = C then
      match gs.get? c.1 with
      | none => none
      | some gstat =>
        aggLoop svd locals cs false (gs.set c.1 (mergeStats svd gstat (locals c)))
    else none

/-- `_aggregate_parcial`, acting on the zipped global list. -/
def aggregateParcial (svd : SvdFun K) {f C : ℕ} (locals : Fin C → PCStats f K)
    (gs : List (PCStats f K)) : Option (List (PCStats f K)) :=
  aggLoop svd locals (List.finRange C) false gs

/-- Accumulating a loop of fallible per-element computations into a list
(the `for c in range(...): ... append` pattern), failing at the first error. -/
def optMapList {α β : Type} (fn : α → Option β) : List α → Option (List β)
  | [] => some []
  | a :: as =>
    match fn a, optMapList fn as with
    | some b, some bs => some (b :: bs)
    | _, _ => none

/-- `_calculate_weights`: sets `w = []`, returns at once if the global state is
empty, otherwise rebuilds the whole list reading `mg/ug/sg[c]` for
`c in range(num_classes)` (`none` models an IndexError on a malformed state). -/
def calcWeights {f : ℕ} (lamb : K) (sparse : Bool) (C : ℕ)
    (gs : List (PCStats f K)) : Option (List (Fin (f + 1) → K)) :=
  if gs.isEmpty then some []
  else optMapList (fun c =>
    (gs.get? c.1).map fun st =>
      if sparse then wSolveSparse lamb st.U st.S st.M else wSolveDense lamb st.U st.S st.M)
    (List.finRange C)

/-- `aggregate_update`: `update_weights`, then `_aggregate_parcial`, then
`_calculate_weights`. -/
def aggregate_update (svd : SvdFun K) {f C n : ℕ} (s : ROLANNState f C K)
    (X : Matrix (Fin n) (Fin f) K) (d : Fin n → Fin C → K) :
    Option (ROLANNState f C K) := do
  let locals ← updateWeightsAll svd s X d
  let g2 ← aggregateParcial svd locals s.g
  let w2 ← calcWeights s.lamb s.sparse C g2
  some { s with g := g2, w := some w2 }

/-- `forward`: fails when `w` is `None` (`len(None)` raises) or the activation
attribute is missing; otherwise the n × len(w) matrix of activated scores.
`nn.Dropout` acts elementwise on `xp` and changes neither shapes nor
definedness (identity in eval mode / at rate 0), so it is not modelled. -/
def forward {f C : ℕ} (s : ROLANNState f C K) {n : ℕ} (X : Matrix (Fin n) (Fin f) K) :
    Option ((k : ℕ) × Matrix (Fin n) (Fin k) K) :=
  match s.w, s.fOpt with
  | some wl, some fact =>
    some ⟨wl.length,
      Matrix.of fun j i => fact (dotProduct (wl.get i) fun row => xpMat X row j)⟩
  | _, _ => none

/-- `reset`: clears the global lists and the weight table. -/
def reset {f C : ℕ} (s : ROLANNState f C K) : ROLANNState f C K :=
  { s with g := [], w := none }

/-- `set_params(w)`: installs a weight table. -/
def set_params {f C : ℕ} (s : ROLANNState f C K) (wl : List (Fin (f + 1) → K)) :
    ROLANNState f C K :=
  { s with w := some wl }

/-! ## Construction (`__init__`) over the reals -/

/-- `self.finv` for `activation == "logs"`: `torch.log(x / (1 - x))`. -/
noncomputable def logisticFinv : ℝ → ℝ := fun x => Real.log (x / (1 - x))

/-- `self.fderiv` for `activation == "logs"`: `x * (1 - x)`. -/
noncomputable def logisticFderiv : ℝ → ℝ := fun x => x * (1 - x)

/-- The per-sample confidence weight the code computes for the logistic
activation: `fderiv(finv(t))`. -/
noncomputable def logisticWeight : ℝ → ℝ := fun t => logisticFderiv (logisticFinv t)

/-- `torch.sigmoid`. -/
noncomputable def sigmoidFun : ℝ → ℝ := fun z => 1 / (1 + Real.exp (-z))

/-- The `(f, finv, fderiv)` triple selected by the `if/elif` chain of
`__init__`; `none` when no branch matches (no attribute is assigned). -/
noncomputable def activationTriple (activation : String) : Option ((ℝ → ℝ) × (ℝ → ℝ) × (ℝ → ℝ)) :=
  if activation = "logs" then some (sigmoidFun, logisticFinv, logisticFderiv)
  else if activation = "rel" then
    some (fun x => max x 0, fun x => Real.log x, fun x => if 0 < x then 1 else 0)
  else if activation = "lin" then some (id, id, id)
  else none

/-- The state `__init__` builds. There is no else branch raising on an
unrecognized name: `self.f/finv/fderiv` are simply never assigned. -/
noncomputable def mkROLANNState (f C : ℕ) (lamb : ℝ) (activation : String) (sparse : Bool) :
    ROLANNState f C ℝ :=
  { lamb := lamb
    fOpt := (activationTriple activation).map fun t => t.1
    finvOpt := (activationTriple activation).map fun t => t.2.1
    fderivOpt := (activationTriple activation).map fun t => t.2.2
    sparse := sparse
    g := []
    w := none }

/-- `__init__` as a fallible constructor (the form in which C6 is statable):
the Python constructor body contains no raise statement, so it returns `ok`
on every input. -/
noncomputable def mkROLANN (f C : ℕ) (lamb : ℝ) (activation : String) (sparse : Bool) :
    Except String (ROLANNState f C ℝ) :=
  Except.ok (mkROLANNState f C lamb activation sparse)

/-! ## Operation traces -/

/-- The mutating operations on an instance (`forward` and `get_params` read
but do not assign; `get_params` in fact always raises, see C9). -/
inductive Op (f C : ℕ) (K : Type) where
  | agg (svd : SvdFun K) (n : ℕ) (X : Matrix (Fin n) (Fin f) K) (d : Fin n → Fin C → K)
  | resetOp
  | setParamsOp (wl : List (Fin (f + 1) → K))

/-- One step.  A failing `aggregate_update` on a consistent state raises
before mutating anything (`update_weights` fails only on a missing activation
attribute, prior to any assignment), so failure leaves the state unchanged. -/
def step {f C : ℕ} (s : ROLANNState f C K) : Op f C K → ROLANNState f C K
  | .agg svd _ X d => (aggregate_update svd s X d).getD s
  | .resetOp => reset s
  | .setParamsOp wl => set_params s wl

def runOps {f C : ℕ} (s : ROLANNState f C K) : List (Op f C K) → ROLANNState f C K
  | [] => s
  | o :: ops => runOps (step s o) ops

/-- No `aggregate_update` and no `set_params` COMPLETES along the trace from
state `s`: `aggregate_update` attempts are allowed as long as they fail at the
state where they run (e.g. on an instance whose activation attributes were
never assigned), `set_params` is excluded, and `reset`s are free. -/
def NoCompletedTraining {f C : ℕ} : ROLANNState f C K → List (Op f C K) → Prop
  | _, [] => True
  | s, .agg svd n X d :: ops =>
    aggregate_update svd s X d = none ∧ NoCompletedTraining (step s (.agg svd n X d)) ops
  | _, .setParamsOp _ :: _ => False
  | s, .resetOp :: ops => NoCompletedTraining (step s .resetOp) ops

/-! ## Behaviour of the aggregation loop -/

/-- Once `init` is set, the loop only appends, one local entry per
remaining class index. -/
theorem aggLoop_appendPhase (svd : SvdFun K) {f C : ℕ} (locals : Fin C → PCStats f K)
    (cs : List (Fin C)) :
    ∀ gs, aggLoop svd locals cs true gs = some (gs ++ cs.map locals) := by
  induction cs with
  | nil => intro gs; simp [aggLoop]
  | cons c cs ih => intro gs; simp [aggLoop, ih]

/-- From an empty global list, the loop appends all local entries in class
order. -/
theorem aggLoop_emptyStart (svd : SvdFun K) {f C : ℕ} (locals : Fin C → PCStats f K)
    (cs : List (Fin C)) :
    aggLoop svd locals cs false [] = some (cs.map locals) := by
  cases cs with
  | nil => simp [aggLoop]
  | cons c cs => simp [aggLoop, aggLoop_appendPhase]

/-- First call: the freshly computed local statistics become the global list
verbatim. -/
theorem aggregateParcial_emptyGlobal (svd : SvdFun K) {f C : ℕ}
    (locals : Fin C → PCStats f K) :
    aggregateParcial svd locals [] = some (List.ofFn locals) := by
  rw [aggregateParcial, aggLoop_emptyStart, List.ofFn_eq_map]

/-- Merge phase: with a well-formed global list of length `C` and distinct
class indices, the loop succeeds and replaces exactly the entries of the
visited classes by their merges with the local statistics. -/
theorem aggLoop_mergePhase (svd : SvdFun K) {f C : ℕ} (locals : Fin C → PCStats f K) :
    ∀ (cs : List (Fin C)) (gs : List (PCStats f K)), gs.length = C → cs.Nodup →
      ∃ gs2, aggLoop svd locals cs false gs = some gs2 ∧ gs2.length = C ∧
        ∀ i : Fin C, gs2.get? i.1 =
          if i ∈ cs then (gs.get? i.1).map fun gstat => mergeStats svd gstat (locals i)
          else gs.get? i.1 := by
  intro cs
  induction cs with
  | nil =>
    intro gs hlen _
    exact ⟨gs, rfl, hlen, fun i => by simp⟩
  | cons c cs ih =>
    intro gs hlen hnd
    have hC : 0 < C := c.pos
    have hlt : c.1 < gs.length := by rw [hlen]; exact c.2
    have hne : gs.isEmpty = false := by
      cases gs with
      | nil => exact absurd (hlen ▸ hC) (by simp)
      | cons a l => rfl
    have hget : gs.get? c.1 = some (gs.get ⟨c.1, hlt⟩) := List.get?_eq_get hlt
    obtain ⟨hcnotin, hndcs⟩ := List.nodup_cons.mp hnd
    obtain ⟨gs2, hrun, hlen2, hchar⟩ :=
      ih (gs.set c.1 (mergeStats svd (gs.get ⟨c.1, hlt⟩) (locals c)))
        (by rw [List.length_set, hlen]) hndcs
    refine ⟨gs2, ?_, hlen2, ?_⟩
    · rw [aggLoop]
      simp only [hne, Bool.false_or, if_false, hlen, if_true, hget]
      exact hrun
    · intro i
      rw [hchar i]
      by_cases hic : i = c
      · subst hic
        rw [if_neg hcnotin, if_pos (List.mem_cons.mpr (Or.inl rfl)), hget,
          Option.map_some', List.get?_set_eq_of_lt _ hlt]
      · have hvalne : c.1 ≠ i.1 := fun h => hic (Fin.ext h.symm)
        rw [List.get?_set_ne _ _ hvalne]
        by_cases hin : i ∈ cs
        · rw [if_pos hin, if_pos (List.mem_cons.mpr (Or.inr hin))]
        · rw [if_neg hin, if_neg (fun hmem => ?_)]
          rcases List.mem_cons.mp hmem with h1 | h2
          · exact hic h1
          · exact hin h2

/-- **C3.** Per class `c`: the first `aggregate_update` on a model (empty
global state) stores the freshly computed local statistics `(M, U, S)`
verbatim; every later `aggregate_update` (well-formed global state, one entry
per class) replaces class `c`'s entry by `mergeStats`, i.e. by
`(M_global + M_local, U', S')` where `(U', S')` is the library's reduced SVD
of the column concatenation `[U_local·diag S_local | U_global·diag S_global]`. -/
theorem C3_store_and_merge (svd : SvdFun K) {f C n : ℕ}
    (s s2 : ROLANNState f C K) (X : Matrix (Fin n) (Fin f) K) (d : Fin n → Fin C → K)
    (finv fderiv : K → K) (hfinv : s.finvOpt = some finv)
    (hfderiv : s.fderivOpt = some fderiv)
    (hagg : aggregate_update svd s X d = some s2) :
    (s.g = [] →
      s2.g = List.ofFn fun c => localStats svd finv fderiv X fun j => d j c) ∧
    (s.g.length = C → ∀ c : Fin C,
      s2.g.get? c.1 = (s.g.get? c.1).map fun gstat =>
        mergeStats svd gstat (localStats svd finv fderiv X fun j => d j c)) := by
  have hupd : updateWeightsAll svd s X d
      = some fun c => localStats svd finv fderiv X fun j => d j c := by
    rw [updateWeightsAll, hfinv, hfderiv]
  rw [aggregate_update, hupd] at hagg
  simp only [bind, Option.bind_eq_some, Option.some.injEq] at hagg
  obtain ⟨l2, hl2, g2, hg2, w2, hw2, hs2⟩ := hagg
  subst hl2
  have hsg : s2.g = g2 := by rw [← hs2]
  constructor
  · intro hempty
    rw [hempty, aggregateParcial_emptyGlobal] at hg2
    rw [hsg]
    exact (Option.some.inj hg2).symm
  · intro hlen c
    obtain ⟨gs2, hrun, _, hchar⟩ := aggLoop_mergePhase svd
      (fun c => localStats svd finv fderiv X fun j => d j c) (List.finRange C) s.g hlen
      (List.nodup_finRange C)
    rw [aggregateParcial, hrun] at hg2
    have hgs2 : g2 = gs2 := (Option.some.inj hg2).symm
    rw [hsg, hgs2, hchar c, if_pos (List.mem_finRange c)]

/-! ## Rank bound machinery (C4) -/

/-- The loop preserves the bound `r ≤ f + 1` on every stored entry: freshly
appended local entries have `r = min (f+1) n` and merged entries have
`r = min (f+1) (r_local + r_global)`. -/
theorem aggLoop_rank (svd : SvdFun K) {f C : ℕ} (locals : Fin C → PCStats f K)
    (hloc : ∀ c, (locals c).r ≤ f + 1) :
    ∀ (cs : List (Fin C)) (init : Bool) (gs : List (PCStats f K)),
      (∀ st ∈ gs, st.r ≤ f + 1) → ∀ gs2, aggLoop svd locals cs init gs = some gs2 →
        ∀ st ∈ gs2, st.r ≤ f + 1 := by
  intro cs
  induction cs with
  | nil =>
    intro init gs hgs gs2 h
    rw [aggLoop] at h
    exact (Option.some.inj h) ▸ hgs
  | cons c cs ih =>
    intro init gs hgs gs2 h
    rw [aggLoop] at h
    by_cases hcond : (gs.isEmpty || init) = true
    · rw [if_pos hcond] at h
      refine ih true _ ?_ gs2 h
      intro st hst
      rcases List.mem_append.mp hst with h1 | h2
      · exact hgs st h1
      · rw [List.mem_singleton.mp h2]
        exact hloc c
    · rw [if_neg hcond] at h
      by_cases hlen : gs.length = C
      · rw [if_pos hlen] at h
        rcases hget : gs.get? c.1 with _ | gstat
        · rw [hget] at h
          exact absurd h (by simp)
        · rw [hget] at h
          refine ih false _ ?_ gs2 h
          intro st hst
          rcases List.mem_or_eq_of_mem_set hst with h1 | h2
          · exact hgs st h1
          · rw [h2]
            exact Nat.min_le_left _ _
      · rw [if_neg hlen] at h
        exact absurd h (by simp)

/-- A successful `aggregate_update` keeps every stored rank at most `f + 1`. -/
theorem aggregate_update_rank (svd : SvdFun K) {f C n : ℕ}
    (s s2 : ROLANNState f C K) (X : Matrix (Fin n) (Fin f) K) (d : Fin n → Fin C → K)
    (hagg : aggregate_update svd s X d = some s2) (h0 : ∀ st ∈ s.g, st.r ≤ f + 1) :
    ∀ st ∈ s2.g, st.r ≤ f + 1 := by
  rcases hu : updateWeightsAll svd s X d with _ | locals
  · rw [aggregate_update, hu] at hagg
    exact absurd hagg (by simp [bind])
  · have hloc : ∀ c, (locals c).r ≤ f + 1 := by
      rw [updateWeightsAll] at hu
      rcases hfi : s.finvOpt with _ | finv <;> rw [hfi] at hu
      · exact absurd hu (by simp)
      · rcases hfd : s.fderivOpt with _ | fderiv <;> rw [hfd] at hu
        · exact absurd hu (by simp)
        · intro c
          rw [← Option.some.inj hu]
          exact Nat.min_le_left _ _
    rw [aggregate_update, hu] at hagg
    simp only [bind, Option.some_bind, Option.bind_eq_some, Option.some.injEq] at hagg
    obtain ⟨g2, hg2, w2, hw2, hs2⟩ := hagg
    have := aggLoop_rank svd locals hloc (List.finRange C) false s.g h0 g2 hg2
    rw [← hs2]
    exact this

/-- **C4.** Rank-bound invariant: on an instance whose global state starts
empty (a fresh construction), after any sequence of operations — any number of
`aggregate_update` calls with any batch sizes, plus resets and `set_params` —
the stored `U` of every class has at most `f + 1` columns (and its `S` as many
entries): every entry's `r` is at most `f + 1`. -/
theorem C4_rank_bound {f C : ℕ} (s0 : ROLANNState f C K) (h0 : s0.g = [])
    (ops : List (Op f C K)) :
    ∀ st ∈ (runOps s0 ops).g, st.r ≤ f + 1 := by
  have hstep : ∀ (s : ROLANNState f C K) (o : Op f C K),
      (∀ st ∈ s.g, st.r ≤ f + 1) → ∀ st ∈ (step s o).g, st.r ≤ f + 1 := by
    intro s o hs
    rcases o with ⟨svd, n, X, d⟩ | _ | wl
    · rw [step]
      rcases hagg : aggregate_update svd s X d with _ | s2
      · simpa using hs
      · simp only [Option.getD_some]
        exact aggregate_update_rank svd s s2 X d hagg hs
    · intro st hst
      exact absurd hst (by simp [step, reset])
    · exact hs
  have hrun : ∀ (ops2 : List (Op f C K)) (s : ROLANNState f C K),
      (∀ st ∈ s.g, st.r ≤ f + 1) → ∀ st ∈ (runOps s ops2).g, st.r ≤ f + 1 := by
    intro ops2
    induction ops2 with
    | nil => intro s hs; exact hs
    | cons o ops2 ih => intro s hs; exact ih (step s o) (hstep s o hs)
  refine hrun ops s0 ?_
  intro st hst
  exact absurd hst (by simp [h0])

/-! ## Class-count invariants (C10) and uninitialized forward (C8) -/

theorem optMapList_length {α β : Type} (fn : α → Option β) :
    ∀ (l : List α) (ys : List β), optMapList fn l = some ys → ys.length = l.length := by
  intro l
  induction l with
  | nil =>
    intro ys h
    rw [optMapList] at h
    rw [← Option.some.inj h]
    rfl
  | cons a as ih =>
    intro ys h
    rw [optMapList] at h
    rcases ha : fn a with _ | b <;> rw [ha] at h
    · exact absurd h (by simp)
    · rcases has : optMapList fn as with _ | bs <;> rw [has] at h
      · exact absurd h (by simp)
      · rw [← Option.some.inj h]
        simp [ih bs has]

/-- A successful `aggregate_update` on a state whose global lists are
all-absent or hold one entry per class leaves exactly `C` entries. -/
theorem aggregate_update_g_length (svd : SvdFun K) {f C n : ℕ}
    (s s2 : ROLANNState f C K) (X : Matrix (Fin n) (Fin f) K) (d : Fin n → Fin C → K)
    (hg : s.g = [] ∨ s.g.length = C) (hagg : aggregate_update svd s X d = some s2) :
    s2.g.length = C := by
  rcases hu : updateWeightsAll svd s X d with _ | locals
  · rw [aggregate_update, hu] at hagg
    exact absurd hagg (by simp [bind])
  rw [aggregate_update, hu] at hagg
  simp only [bind, Option.some_bind, Option.bind_eq_some, Option.some.injEq] at hagg
  obtain ⟨g2, hg2, w2, hw2, hs2⟩ := hagg
  rw [← hs2]
  rcases hg with hempty | hlen
  · rw [hempty, aggregateParcial_emptyGlobal] at hg2
    rw [← Option.some.inj hg2]
    exact List.length_ofFn _
  · obtain ⟨gs2, hrun, hlen2, _⟩ :=
      aggLoop_mergePhase svd locals (List.finRange C) s.g hlen (List.nodup_finRange C)
    rw [aggregateParcial, hrun] at hg2
    rw [← Option.some.inj hg2]
    exact hlen2

/-- Every state reachable from a well-formed instance keeps the classes
all-absent or all-present: the zipped global list is empty or has exactly one
entry per class. -/
theorem runOps_g_wellformed {f C : ℕ} (s0 : ROLANNState f C K)
    (h0 : s0.g = [] ∨ s0.g.length = C) (ops : List (Op f C K)) :
    (runOps s0 ops).g = [] ∨ (runOps s0 ops).g.length = C := by
  have hrun : ∀ (ops2 : List (Op f C K)) (s : ROLANNState f C K),
      s.g = [] ∨ s.g.length = C →
        (runOps s ops2).g = [] ∨ (runOps s ops2).g.length = C := by
    intro ops2
    induction ops2 with
    | nil => intro s hs; exact hs
    | cons o ops2 ih =>
      intro s hs
      refine ih (step s o) ?_
      rcases o with ⟨svd2, n2, X2, d2⟩ | _ | wl
      · rw [step]
        rcases hagg : aggregate_update svd2 s X2 d2 with _ | s2
        · simpa using hs
        · simp only [Option.getD_some]
          exact Or.inr (aggregate_update_g_length svd2 s s2 X2 d2 hs hagg)
      · exact Or.inl rfl
      · exact hs
  exact hrun ops s0 h0

/-- After a successful `aggregate_update` on a state whose global lists are
all-absent or hold one entry per class, the global lists and the weight list
hold exactly `C` entries and `forward` produces an `n₂ × C` matrix. -/
theorem aggregate_update_counts (svd : SvdFun K) {f C n n2 : ℕ} (s s2 : ROLANNState f C K)
    (X : Matrix (Fin n) (Fin f) K) (d : Fin n → Fin C → K)
    (hg : s.g = [] ∨ s.g.length = C)
    (hagg : aggregate_update svd s X d = some s2)
    (fact : K → K) (hf : s.fOpt = some fact) (X2 : Matrix (Fin n2) (Fin f) K) :
    s2.g.length = C ∧ s2.w.map List.length = some C ∧
      (forward s2 X2).map (fun p => p.1) = some C := by
  rcases hu : updateWeightsAll svd s X d with _ | locals
  · rw [aggregate_update, hu] at hagg
    exact absurd hagg (by simp [bind])
  rw [aggregate_update, hu] at hagg
  simp only [bind, Option.some_bind, Option.bind_eq_some, Option.some.injEq] at hagg
  obtain ⟨g2, hg2, w2, hw2, hs2⟩ := hagg
  have hglen : g2.length = C := by
    rcases hg with hempty | hlen
    · rw [hempty, aggregateParcial_emptyGlobal] at hg2
      rw [← Option.some.inj hg2]
      exact List.length_ofFn _
    · obtain ⟨gs2, hrun, hlen2, _⟩ :=
        aggLoop_mergePhase svd locals (List.finRange C) s.g hlen (List.nodup_finRange C)
      rw [aggregateParcial, hrun] at hg2
      rw [← Option.some.inj hg2]
      exact hlen2
  have hwlen : w2.length = C := by
    rw [calcWeights] at hw2
    by_cases hemp : g2.isEmpty = true
    · rw [if_pos hemp] at hw2
      have hw2e : w2 = [] := (Option.some.inj hw2).symm
      have hg2e : g2 = [] := List.isEmpty_iff.mp hemp
      rw [hw2e, ← hglen, hg2e]
      rfl
    · rw [if_neg hemp] at hw2
      rw [optMapList_length _ _ _ hw2]
      exact List.length_finRange C
  refine ⟨?_, ?_, ?_⟩
  · rw [← hs2]
    exact hglen
  · rw [← hs2]
    simp [hwlen]
  · rw [← hs2]
    simp only [forward, hf]
    simp [hwlen]

/-- **C10.** On an instance constructed with `num_classes = C` and driven by
any operation sequence, the global statistic lists stay all-absent or
all-present together, one entry per class index `0..C−1` (first conjunct);
and after every successful `aggregate_update` the zipped global lists
`mg`/`ug`/`sg` and the weight list `w` hold exactly `C` entries while
`forward` on any `n₂`-row feature batch returns an `n₂ × C` score matrix. -/
theorem C10_class_counts (svd : SvdFun K) {f C n n2 : ℕ} (s0 : ROLANNState f C K)
    (h0 : s0.g = []) (ops : List (Op f C K)) (s2 : ROLANNState f C K)
    (X : Matrix (Fin n) (Fin f) K) (d : Fin n → Fin C → K)
    (hagg : aggregate_update svd (runOps s0 ops) X d = some s2)
    (fact : K → K) (hf : (runOps s0 ops).fOpt = some fact)
    (X2 : Matrix (Fin n2) (Fin f) K) :
    ((runOps s0 ops).g = [] ∨ (runOps s0 ops).g.length = C) ∧
      s2.g.length = C ∧ s2.w.map List.length = some C ∧
      (forward s2 X2).map (fun p => p.1) = some C := by
  have hwf := runOps_g_wellformed s0 (Or.inl h0) ops
  exact ⟨hwf, aggregate_update_counts svd (runOps s0 ops) s2 X d hwf hagg fact hf X2⟩

/-- A trace along which no training operation completes — failed
`aggregate_update` attempts included, since they leave the state unchanged —
preserves an unset weight table. -/
theorem runOps_w_none {f C : ℕ} :
    ∀ (ops : List (Op f C K)) (s : ROLANNState f C K),
      NoCompletedTraining s ops → s.w = none → (runOps s ops).w = none := by
  intro ops
  induction ops with
  | nil => intro s _ hs; exact hs
  | cons o ops ih =>
    intro s hno hs
    rw [runOps]
    rcases o with ⟨svd, n, X, d⟩ | _ | wl
    · obtain ⟨ho, hrest⟩ := hno
      refine ih _ hrest ?_
      show ((aggregate_update svd s X d).getD s).w = none
      rw [ho, Option.getD_none]
      exact hs
    · exact ih _ hno rfl
    · exact hno.elim

theorem forward_of_w_none {f C : ℕ} (s : ROLANNState f C K) {n : ℕ}
    (X : Matrix (Fin n) (Fin f) K) (h : s.w = none) : forward s X = none := by
  simp [forward, h]

/-- **C8.** On an instance on which no `aggregate_update` and no `set_params`
has COMPLETED since construction or since the last `reset()` — failed
`aggregate_update` attempts are allowed in the trace, since `update_weights`
raises before any assignment — `forward` on any feature batch fails (in
Python, `len(self.w)` with `w = None` raises a TypeError) rather than
returning scores. -/
theorem C8_forward_uninitialized {f C : ℕ} (lamb : ℝ) (act : String) (sp : Bool)
    (s : ROLANNState f C ℝ) (ops ops2 : List (Op f C ℝ))
    (hops : NoCompletedTraining (mkROLANNState f C lamb act sp) ops)
    (hops2 : NoCompletedTraining (reset s) ops2)
    {n : ℕ} (X : Matrix (Fin n) (Fin f) ℝ) :
    forward (runOps (mkROLANNState f C lamb act sp) ops) X = none ∧
      forward (runOps (reset s) ops2) X = none :=
  ⟨forward_of_w_none _ X (runOps_w_none ops _ hops rfl),
    forward_of_w_none _ X (runOps_w_none ops2 _ hops2 rfl)⟩

/-! ### Witness infrastructure over ℚ -/

/-- A deterministic oracle of the correct SVD output shape (the machine claims
C3/C4/C8/C10 are about bookkeeping and shapes, not the factor property). -/
def wSvd0 : SvdFun ℚ := fun _ _ _ => (0, 0)

/-- A fresh linear-activation instance over ℚ with `f = 1`, one class. -/
def wFresh : ROLANNState 1 1 ℚ :=
  { lamb := 1, fOpt := some id, finvOpt := some id, fderivOpt := some fun _ => 1,
    sparse := false, g := [], w := none }

/-- Witness for C3, exercising the merge branch: a second `aggregate_update`
replaces the class-0 entry by the merge of the stored and fresh local
statistics. -/
theorem C3_store_and_merge_witness :
    ((aggregate_update wSvd0 (runOps wFresh [Op.agg wSvd0 1 wX1 fun _ _ => 1]) wX2
        fun _ _ => 1).map fun s2 => s2.g.get? 0)
      = some (some (mergeStats wSvd0
          (localStats wSvd0 id (fun _ => 1) wX1 fun _ => 1)
          (localStats wSvd0 id (fun _ => 1) wX2 fun _ => 1))) := by
  have hsome : (aggregate_update wSvd0 (runOps wFresh [Op.agg wSvd0 1 wX1 fun _ _ => 1])
      wX2 fun _ _ => 1).isSome = true := rfl
  obtain ⟨s2, hs2⟩ : ∃ s2, aggregate_update wSvd0
      (runOps wFresh [Op.agg wSvd0 1 wX1 fun _ _ => 1]) wX2 (fun _ _ => 1) = some s2 :=
    ⟨_, (Option.some_get hsome).symm⟩
  have h := C3_store_and_merge wSvd0 (runOps wFresh [Op.agg wSvd0 1 wX1 fun _ _ => 1]) s2
    wX2 (fun _ _ => 1) id (fun _ => 1) rfl rfl hs2
  have h2 := h.2 rfl 0
  simp only [Fin.val_zero] at h2
  have hget : (runOps wFresh [Op.agg wSvd0 1 wX1 fun _ _ => 1]).g.get? 0
      = some (localStats wSvd0 id (fun _ => 1) wX1 fun _ => 1) := rfl
  rw [hs2, Option.map_some', h2, hget, Option.map_some']

/-- Witness for C4: after one concrete `aggregate_update`, every stored rank
is at most `f + 1 = 2`. -/
theorem C4_rank_bound_witness :
    ((runOps wFresh [Op.agg wSvd0 1 wX1 fun _ _ => 1]).g.all
      fun st => decide (st.r ≤ 1 + 1)) = true := by
  rw [List.all_eq_true]
  intro st hst
  exact decide_eq_true
    (C4_rank_bound wFresh rfl [Op.agg wSvd0 1 wX1 fun _ _ => 1] st hst)

/-- Witness for C10 at a concrete successful `aggregate_update`. -/
theorem C10_class_counts_witness :
    ((aggregate_update wSvd0 wFresh wX1 fun _ _ => 1).map fun s2 => s2.g.length)
        = some 1 ∧
      ((aggregate_update wSvd0 wFresh wX1 fun _ _ => 1).map fun s2 =>
        s2.w.map List.length) = some (some 1) ∧
      ((aggregate_update wSvd0 wFresh wX1 fun _ _ => 1).map fun s2 =>
        (forward s2 wX1).map fun p => p.1) = some (some 1) := by
  have hsome : (aggregate_update wSvd0 wFresh wX1 fun _ _ => 1).isSome = true := rfl
  obtain ⟨s2, hs2⟩ : ∃ s2, aggregate_update wSvd0 wFresh wX1 (fun _ _ => 1) = some s2 :=
    ⟨_, (Option.some_get hsome).symm⟩
  have h := C10_class_counts wSvd0 wFresh rfl [] s2 wX1 (fun _ _ => 1) hs2 id rfl wX1
  refine ⟨?_, ?_, ?_⟩ <;> rw [hs2, Option.map_some']
  · exact congrArg some h.2.1
  · exact congrArg some h.2.2.1
  · exact congrArg some h.2.2.2

/-- A concrete real feature batch and a zero real SVD oracle for the
ℝ-specific witnesses. -/
noncomputable def wXr : Matrix (Fin 1) (Fin 1) ℝ := Matrix.of fun _ _ => 0

noncomputable def wSvdR : SvdFun ℝ := fun _ _ _ => (0, 0)

/-- Witness for C8, exercising the full scope of the trace hypothesis: a
failed `aggregate_update` attempt (on an instance constructed with the
unrecognized activation name "tanh", so `update_weights` raises) appears in
both traces, followed by a `reset` in the first. -/
theorem C8_forward_uninitialized_witness :
    forward (runOps (mkROLANNState 1 1 1 "tanh" false)
        [Op.agg wSvdR 1 wXr fun _ _ => 0, Op.resetOp]) wXr = none ∧
      forward (runOps (reset (mkROLANNState 1 1 1 "tanh" false))
        [Op.agg wSvdR 1 wXr fun _ _ => 0]) wXr = none :=
  C8_forward_uninitialized 1 "tanh" false (mkROLANNState 1 1 1 "tanh" false)
    [Op.agg wSvdR 1 wXr fun _ _ => 0, Op.resetOp] [Op.agg wSvdR 1 wXr fun _ _ => 0]
    ⟨rfl, trivial⟩ ⟨rfl, trivial⟩ wXr

/-! ## C6: construction with an unrecognized activation name -/

/-- **C6 counterexample.** Constructing with the unrecognized name "tanh" does
not fail with a configuration error: `__init__` has no else branch, so
construction succeeds and returns a state. -/
theorem C6_counterexample :
    mkROLANN 1 2 (1 / 100) "tanh" false
      = Except.ok (mkROLANNState 1 2 (1 / 100) "tanh" false) := rfl

/-- **C6 amended.** For every activation name outside {"logs", "rel", "lin"},
construction succeeds silently; the activation attributes are simply never
assigned, and the failure is deferred: the first `aggregate_update` call fails
(AttributeError on `self.finv`) instead of the constructor. -/
theorem C6_amended (f C : ℕ) (lamb : ℝ) (name : String) (sp : Bool)
    (h1 : name ≠ "logs") (h2 : name ≠ "rel") (h3 : name ≠ "lin")
    (svd : SvdFun ℝ) {n : ℕ} (X : Matrix (Fin n) (Fin f) ℝ) (d : Fin n → Fin C → ℝ) :
    mkROLANN f C lamb name sp = Except.ok (mkROLANNState f C lamb name sp) ∧
      (mkROLANNState f C lamb name sp).fOpt = none ∧
      (mkROLANNState f C lamb name sp).finvOpt = none ∧
      (mkROLANNState f C lamb name sp).fderivOpt = none ∧
      aggregate_update svd (mkROLANNState f C lamb name sp) X d = none := by
  have hact : activationTriple name = none := by
    rw [activationTriple, if_neg h1, if_neg h2, if_neg h3]
  refine ⟨rfl, ?_, ?_, ?_, ?_⟩
  · simp [mkROLANNState, hact]
  · simp [mkROLANNState, hact]
  · simp [mkROLANNState, hact]
  · simp [aggregate_update, updateWeightsAll, mkROLANNState, hact, bind]

/-- Witness for the amended C6 at the concrete name "tanh". -/
theorem C6_amended_witness :
    mkROLANN 1 1 1 "tanh" false = Except.ok (mkROLANNState 1 1 1 "tanh" false) ∧
      (mkROLANNState 1 1 1 "tanh" false).fOpt = none ∧
      (mkROLANNState 1 1 1 "tanh" false).finvOpt = none ∧
      (mkROLANNState 1 1 1 "tanh" false).fderivOpt = none ∧
      aggregate_update wSvdR (mkROLANNState 1 1 1 "tanh" false) wXr (fun _ _ => 0) = none :=
  C6_amended 1 1 1 "tanh" false (by decide) (by decide) (by decide) wSvdR wXr fun _ _ => 0

/-! ## C5: the logistic confidence weight -/

/-- **C5 (code evaluated at the failing input).** The contract asks for the
derivative of the sigmoid forward function at the pre-activation
`z = logit(t)` — which equals `t·(1−t)`; indeed the sigmoid has derivative
`1/4 = (1/2)·(1−1/2)` at `logit(1/2) = 0`.  The code instead computes
`fderiv(finv(t)) = logit(t)·(1−logit(t))` (the probability-space formula
`x(1−x)` applied to a pre-activation), which at `t = 1/2` yields `0 ≠ 1/4`. -/
theorem C5_code_eval :
    logisticFinv (1 / 2) = 0 ∧ HasDerivAt sigmoidFun (1 / 4) 0 ∧
      logisticWeight (1 / 2) = 0 ∧ (1 / 2 : ℝ) * (1 - 1 / 2) = 1 / 4 ∧
      logisticWeight (1 / 2) ≠ (1 / 2 : ℝ) * (1 - 1 / 2) := by
  have hfinv : logisticFinv (1 / 2) = 0 := by
    simp only [logisticFinv]
    norm_num
  have hweight : logisticWeight (1 / 2) = 0 := by
    simp only [logisticWeight, logisticFderiv, hfinv]
    norm_num
  have hexp : HasDerivAt (fun z : ℝ => Real.exp (-z)) (-1) 0 := by
    have h := (hasDerivAt_neg (0 : ℝ)).exp
    simpa using h
  have hden : HasDerivAt (fun z : ℝ => 1 + Real.exp (-z)) (-1) 0 := hexp.const_add 1
  have hne : (fun z : ℝ => 1 + Real.exp (-z)) 0 ≠ 0 := by
    have : (0 : ℝ) < 1 + Real.exp (-0) := by positivity
    exact this.ne'
  have hinv2 : HasDerivAt (fun z : ℝ => (1 + Real.exp (-z))⁻¹) (1 / 4) 0 := by
    have h := hden.inv hne
    convert h using 1
    norm_num [Real.exp_zero]
  have hsig : HasDerivAt sigmoidFun (1 / 4) 0 := by
    have heq : sigmoidFun = fun z : ℝ => (1 + Real.exp (-z))⁻¹ := by
      funext z
      exact one_div _
    rw [heq]
    exact hinv2
  refine ⟨hfinv, hsig, hweight, by norm_num, ?_⟩
  rw [hweight]
  norm_num

/-! ## C9: the `get_params` attribute error -/

/-- Attribute names ever assigned on a `ROLANN` instance: `__init__` assigns
`num_classes, lamb, f, finv, fderiv` (the latter three only in the recognized
activation branches), `w, m, u, s, mg, ug, sg, sparse, dropout`; the methods
only reassign `m, u, s, mg, ug, sg, w`; `nn.Module.__init__` additionally
registers `training` and underscore-prefixed bookkeeping dictionaries, none
of which is named `us`. -/
def rolannAssignedAttrs : List String :=
  ["num_classes", "lamb", "f", "finv", "fderiv", "w", "m", "u", "s",
    "mg", "ug", "sg", "sparse", "dropout", "training"]

/-- The attribute names `get_params` reads: `return self.m, self.us`. -/
def getParamsReads : List String := ["m", "us"]

/-- `get_params` returns without raising iff every attribute it reads has been
assigned somewhere; reading an unassigned attribute raises AttributeError
(Python object attribute semantics, including `nn.Module.__getattr__`). -/
def getParamsSucceeds : Bool :=
  getParamsReads.all fun a => rolannAssignedAttrs.contains a

/-- **C9 (code evaluation).** `get_params` reads `self.us`, which is never
assigned anywhere in the class: every call raises AttributeError, so the
`get_params`/`set_params` serialization boundary cannot round-trip. -/
theorem C9_get_params_raises : getParamsSucceeds = false := by decide
